import Mathlib

/-!
Verification of the MountainNano GPX pipeline and playback controller.

This file shallowly embeds the algorithmic core of the repository:

* the coordinate normalizer, downsampler, checkpoint snapper and heightfield
  synthesizer of the GPX-to-JSON converter script, and
* the frame-driven playback/camera controller of the visualization page.

JavaScript numbers are modelled as exact rationals (`ℚ`); the only
transcendental operation in the source, `Math.exp` in the heightfield
falloff, is modelled with `Real.exp`.  A `NaN` timestamp (a non-finite
`timeMs`) is modelled as `none : Option ℚ`.
-/

namespace MountainNano

/-- A raw GPX track point as produced by `loadGpx`:
latitude, longitude, elevation (defaulting to 0 when absent) and the
parsed timestamp in milliseconds, `none` when the timestamp is absent
or unparsable (JS `Number.NaN`). -/
structure RawSample where
  lat : ℚ
  lon : ℚ
  ele : ℚ
  timeMs : Option ℚ
deriving DecidableEq

/-- A normalized local-Cartesian point `[x, y, z]` (y is the elevation axis). -/
structure P3 where
  x : ℚ
  y : ℚ
  z : ℚ
deriving DecidableEq

/-- The bounding box computed by `normalizePoints`. -/
structure BBox where
  minLat : ℚ
  maxLat : ℚ
  minLon : ℚ
  maxLon : ℚ
  minEle : ℚ
  maxEle : ℚ
deriving DecidableEq

/-- Result record of `normalizePoints`: `{ points, times, bbox }`. -/
structure NormResult where
  points : List P3
  times : List (Option ℚ)
  bbox : BBox
deriving DecidableEq

/-- `Math.min(...l)` for a non-empty list; the empty case (JS `Infinity`)
is unreachable because `loadGpx` rejects empty tracks, and is given the
junk value 0. -/
def listMin : List ℚ → ℚ
  | [] => 0
  | a :: l => l.foldl min a

/-- `Math.max(...l)`; empty case as in `listMin`. -/
def listMax : List ℚ → ℚ
  | [] => 0
  | a :: l => l.foldl max a

/-- `span || 1`: substitute `1` for a zero (falsy) span. -/
def effSpan (s : ℚ) : ℚ := if s = 0 then 1 else s

def minLatOf (raw : List RawSample) : ℚ := listMin (raw.map RawSample.lat)

def maxLatOf (raw : List RawSample) : ℚ := listMax (raw.map RawSample.lat)

def minLonOf (raw : List RawSample) : ℚ := listMin (raw.map RawSample.lon)

def maxLonOf (raw : List RawSample) : ℚ := listMax (raw.map RawSample.lon)

def minEleOf (raw : List RawSample) : ℚ := listMin (raw.map RawSample.ele)

def maxEleOf (raw : List RawSample) : ℚ := listMax (raw.map RawSample.ele)

def centerLatOf (raw : List RawSample) : ℚ := (minLatOf raw + maxLatOf raw) / 2

def centerLonOf (raw : List RawSample) : ℚ := (minLonOf raw + maxLonOf raw) / 2

/-- `maxSpan = Math.max(spanLat || 1, spanLon || 1)`. -/
def maxSpanOf (raw : List RawSample) : ℚ :=
  max (effSpan (maxLatOf raw - minLatOf raw)) (effSpan (maxLonOf raw - minLonOf raw))

/-- `horizontalScale = 4 / maxSpan`. -/
def horizontalScaleOf (raw : List RawSample) : ℚ := 4 / maxSpanOf raw

/-- `eleSpan = maxEle - minEle || 1`. -/
def eleSpanEffOf (raw : List RawSample) : ℚ := effSpan (maxEleOf raw - minEleOf raw)

/-- `elevationScale = 0.8 / eleSpan`. -/
def elevationScaleOf (raw : List RawSample) : ℚ := (4 / 5) / eleSpanEffOf raw

/-- One sample of the `rawPoints.map` in `normalizePoints`:
`x = -(lon - centerLon) * horizontalScale`, `y = (ele - minEle) * elevationScale`,
`z = (lat - centerLat) * horizontalScale`. -/
def normalizePoint (raw : List RawSample) (p : RawSample) : P3 :=
  ⟨-(p.lon - centerLonOf raw) * horizontalScaleOf raw,
    (p.ele - minEleOf raw) * elevationScaleOf raw,
    (p.lat - centerLatOf raw) * horizontalScaleOf raw⟩

/-- `normalizePoints` of the converter script. -/
def normalizePoints (raw : List RawSample) : NormResult :=
  { points := raw.map (normalizePoint raw)
    times := raw.map RawSample.timeMs
    bbox :=
      { minLat := minLatOf raw, maxLat := maxLatOf raw
        minLon := minLonOf raw, maxLon := maxLonOf raw
        minEle := minEleOf raw, maxEle := maxEleOf raw } }

/-- The downsampling step in `main`:
`step = Math.max(1, Math.floor(N / 500))` and
`sampled = rawPoints.filter((_, i) => i % step === 0)`. -/
def downsample {α : Type} (xs : List α) : List α :=
  let step := max 1 (xs.length / 500)
  (xs.enum.filter (fun p => p.1 % step == 0)).map Prod.snd

/-- A checkpoint (POI) definition as read from `pois.json`:
optional explicit label time, elapsed-time fields and fraction. -/
structure PoiDef where
  name : String
  time : Option String
  elapsedSeconds : Option ℚ
  elapsedMinutes : Option ℚ
  fraction : Option ℚ
deriving DecidableEq

/-- A produced timeline entry `{ time, label, position }`. -/
structure TimelineEntry where
  time : String
  label : String
  position : P3
deriving DecidableEq

/-- `String(n).padStart(2, '0')` for a natural number. -/
def pad2 (n : ℕ) : String :=
  let s := toString n
  if s.length < 2 then "0" ++ s else s

/-- `formatElapsedLabel`: clamp below by 0, floor, format as MM:SS. -/
def formatElapsedLabel (totalSeconds : ℚ) : String :=
  let clamped := (max 0 ⌊totalSeconds⌋).toNat
  let minutes := clamped / 60
  let seconds := clamped % 60
  pad2 minutes ++ ":" ++ pad2 seconds

/-- The legacy placeholder label for definitions with no time data:
`"00:" + String(index * 10).padStart(2, '0')`. -/
def legacyLabel (index : ℕ) : String := "00:" ++ pad2 (index * 10)

/-- `startTime`: the minimum of the finite timestamps, `none` when there are
none (JS `NaN`). -/
def startTimeOf (times : List (Option ℚ)) : Option ℚ :=
  match times.filterMap id with
  | [] => none
  | a :: l => some (l.foldl min a)

/-- `endTime`: the maximum of the finite timestamps, `none` when there are
none (JS `NaN`). -/
def endTimeOf (times : List (Option ℚ)) : Option ℚ :=
  match times.filterMap id with
  | [] => none
  | a :: l => some (l.foldl max a)

/-- `totalDurationMs`: `endTime - startTime` when both are finite, else 0. -/
def durationOf (times : List (Option ℚ)) : ℚ :=
  match startTimeOf times, endTimeOf times with
  | some s, some e => e - s
  | _, _ => 0

/-- The elapsed seconds a definition carries: `elapsedSeconds` when present,
else `elapsedMinutes * 60` (0 when neither is present; callers guard on
presence). -/
def elapsedOf (poi : PoiDef) : ℚ :=
  match poi.elapsedSeconds with
  | some s => s
  | none =>
    match poi.elapsedMinutes with
    | some m => m * 60
    | none => 0

/-- The linear scan of `buildTimeline`'s elapsed-time branch: walk the
timestamp list carrying the running index `n` and the accumulator
`(bestIdx, bestDiff)`; `bestDiff = none` models the initial `Infinity`;
non-finite timestamps are skipped; a strict `<` keeps the first occurrence
on ties. -/
def bestScan (target : ℚ) : List (Option ℚ) → ℕ → ℕ × Option ℚ → ℕ × Option ℚ
  | [], _, acc => acc
  | t? :: rest, n, acc =>
    let acc2 :=
      match t?, acc.2 with
      | none, _ => acc
      | some t, none => (n, some |t - target|)
      | some t, some b => if |t - target| < b then (n, some |t - target|) else acc
    bestScan target rest (n + 1) acc2

/-- `bestIdx` after the scan, starting from `bestIdx = 0`, `bestDiff = Infinity`. -/
def bestTimeIdx (times : List (Option ℚ)) (target : ℚ) : ℕ :=
  (bestScan target times 0 (0, none)).1

/-- The per-definition index selection of `buildTimeline`: elapsed-time
matching when the definition has an elapsed field, the start time is finite
and the total duration is positive; otherwise the fractional fallback; the
result is clamped into `[0, ptsLen - 1]` (integer arithmetic mirrors the JS
floats, including `ptsLen - 1 = -1` for an empty trail). -/
def chooseIdx (ptsLen : ℕ) (times : List (Option ℚ)) (defsLen index : ℕ)
    (poi : PoiDef) : ℕ :=
  let idx : ℤ :=
    if (poi.elapsedSeconds.isSome || poi.elapsedMinutes.isSome) = true ∧
        (startTimeOf times).isSome = true ∧ 0 < durationOf times then
      (bestTimeIdx times ((startTimeOf times).getD 0 + elapsedOf poi * 1000) : ℤ)
    else
      let fraction : ℚ :=
        match poi.fraction with
        | some f => min 1 (max 0 f)
        | none => (index : ℚ) / (max 1 (defsLen - 1) : ℕ)
      ⌊fraction * ((ptsLen : ℚ) - 1)⌋
  (max 0 (min ((ptsLen : ℤ) - 1) idx)).toNat

/-- The label-time policy of `buildTimeline`: explicit `poi.time` first,
then the formatted elapsed time, then the legacy placeholder. -/
def labelTimeOf (index : ℕ) (poi : PoiDef) : String :=
  match poi.time with
  | some t => t
  | none =>
    if (poi.elapsedSeconds.isSome || poi.elapsedMinutes.isSome) = true then
      formatElapsedLabel (elapsedOf poi)
    else legacyLabel index

/-- `buildTimeline`: one entry per definition, in input order.  Indexing the
points at the clamped index is total here via a junk default; the JS code
would throw instead, which is unreachable for a non-empty trail because the
index is clamped into range. -/
def buildTimeline (points : List P3) (times : List (Option ℚ))
    (defs : List PoiDef) : List TimelineEntry :=
  defs.enum.map fun it =>
    let idx := chooseIdx points.length times defs.length it.1 it.2
    { time := labelTimeOf it.1 it.2
      label := it.2.name
      position := points[idx]?.getD ⟨0, 0, 0⟩ }

/-- The offline pipeline of `main` after loading: downsample, normalize,
build the timeline. -/
def mainTimeline (raw : List RawSample) (defs : List PoiDef) : List TimelineEntry :=
  let sampled := downsample raw
  let n := normalizePoints sampled
  buildTimeline n.points n.times defs

/-! ## Heightfield synthesizer (`buildHeightfield`) -/

/-- `2 * sigma * sigma` with `sigma = 1.2`. -/
def twoSigmaSq : ℚ := 2 * (6 / 5) * (6 / 5)

/-- Grid-cell coordinate: `(i / (resolution - 1)) * size - halfSize` with
`resolution = 64`, `size = 8`, `halfSize = 4`. -/
def gridCoord (i : ℕ) : ℚ := (i : ℚ) / 63 * 8 - 4

/-- One iteration of the nearest-point loop: the accumulator carries
`(minDistSq, nearestY)`, where `none` models the initial `Infinity`;
a strict `<` keeps the first point on ties. -/
def nearestStep (u v : ℚ) (acc : Option ℚ × ℚ) (p : P3) : Option ℚ × ℚ :=
  let dx := u - p.x
  let dz := v - p.z
  let dsq := dx * dx + dz * dz
  match acc.1 with
  | none => (some dsq, p.y)
  | some b => if dsq < b then (some dsq, p.y) else acc

/-- The full nearest-point scan over the trail, starting from
`minDistSq = Infinity`, `nearestY = 0`. -/
def nearestScan (u v : ℚ) (pts : List P3) : Option ℚ × ℚ :=
  pts.foldl (nearestStep u v) (none, 0)

/-- Height at an arbitrary planar position `(u, v)`:
`nearestY * Math.exp(-minDistSq / twoSigmaSq)`.  When the trail is empty
`minDistSq` stays `Infinity` and JS yields `0 * exp(-Infinity) = 0`. -/
noncomputable def heightFun (pts : List P3) (u v : ℚ) : ℝ :=
  match nearestScan u v pts with
  | (none, _) => 0
  | (some d, y) => (y : ℝ) * Real.exp (-(d : ℝ) / (twoSigmaSq : ℝ))

/-- `heights[j][i]` of the synthesized grid. -/
noncomputable def heightAt (pts : List P3) (i j : ℕ) : ℝ :=
  heightFun pts (gridCoord i) (gridCoord j)

/-- Squared planar distance of grid cell `(i, j)` from the origin. -/
def gridDistSq (i j : ℕ) : ℚ := gridCoord i * gridCoord i + gridCoord j * gridCoord j

/-- No cell of the 64×64 grid has a coordinate exactly at the origin: the
even resolution puts the two middle cells at `±4/63`. -/
def noOriginCell : Prop := ∀ i : Fin 64, gridCoord i.val ≠ 0

/-! ## Playback/camera controller (`CameraController` + `VisualizationPage`) -/

/-- The page-owned state: `activeIndex` and `isPlaying` React state. -/
structure PageState where
  activeIndex : ℕ
  isPlaying : Bool
deriving DecidableEq

/-- The controller-owned refs: camera position, `lastIndexRef`,
`playbackElapsedRef` and `animatingToStepRef`. -/
structure CamState where
  pos : P3
  lastIndex : ℕ
  elapsed : ℚ
  animating : Bool
deriving DecidableEq

/-- `Vector3.lerp(target, 0.04)`: `p + (t - p) * a` componentwise. -/
def lerp3 (p t : P3) (a : ℚ) : P3 :=
  ⟨p.x + (t.x - p.x) * a, p.y + (t.y - p.y) * a, p.z + (t.z - p.z) * a⟩

/-- Squared Euclidean distance; the source compares
`distanceTo < 0.05`, equivalently `distSq3 < 0.0025`. -/
def distSq3 (p q : P3) : ℚ :=
  (p.x - q.x) * (p.x - q.x) + (p.y - q.y) * (p.y - q.y) + (p.z - q.z) * (p.z - q.z)

/-- The arrival-animation half of a `useFrame` callback: while
`animatingToStepRef` holds, lerp the camera toward the fixed offset from
the current step and release the flag once within the arrival threshold
(the source compares the Euclidean distance to `0.05`; squared distances
compare identically). -/
def animStep (cur : TimelineEntry) (cs : CamState) : CamState :=
  let t : P3 := ⟨cur.position.x + 8/5, cur.position.y + 6/5, cur.position.z + 8/5⟩
  if cs.animating then
    let p := lerp3 cs.pos t (1/25)
    if distSq3 p t < 1/400 then { cs with pos := p, animating := false }
    else { cs with pos := p }
  else cs

/-- The playback half of a `useFrame` callback: accumulate `dt` into the
step timer; when it reaches `PLAYBACK_SECONDS_PER_STEP = 2`, reset it and,
only when `lastIndexRef + 1` is in range, emit the auto-advance callback. -/
def playStep (tlLen : ℕ) (playing : Bool) (cs : CamState) (dt : ℚ) :
    CamState × Option ℕ :=
  if playing then
    let e := cs.elapsed + dt
    if 2 ≤ e then
      let next := cs.lastIndex + 1
      if next < tlLen then
        ({ cs with elapsed := 0, lastIndex := next }, some next)
      else ({ cs with elapsed := 0 }, none)
    else ({ cs with elapsed := e }, none)
  else (cs, none)

/-- One `useFrame` callback of `CameraController`: bail out when
`timeline[activeIndex]` is undefined; otherwise run the arrival animation
and then the playback timer.  Returns the updated refs and the argument of
the `onStepAutoAdvance` callback, when invoked. -/
def frameStep (tl : List TimelineEntry) (ps : PageState) (cs : CamState)
    (dt : ℚ) : CamState × Option ℕ :=
  match tl[ps.activeIndex]? with
  | none => (cs, none)
  | some cur => playStep tl.length ps.isPlaying (animStep cur cs) dt

/-- `handleAutoAdvance` of `VisualizationPage`: ignore when not playing,
stop playback for an out-of-range index, otherwise advance `activeIndex`. -/
def handleAutoAdvance (tlLen : ℕ) (ps : PageState) (next : ℕ) : PageState :=
  if ps.isPlaying = false then ps
  else if tlLen ≤ next then { ps with isPlaying := false }
  else { ps with activeIndex := next }

/-- One full frame of the system: the controller frame, then the page's
callback handler, then the controller's `useEffect` on
`[activeIndex, isPlaying]` (re-sync `lastIndexRef`, reset the step timer,
and re-arm the arrival animation when not playing). -/
def systemStep (tl : List TimelineEntry) (s : PageState × CamState)
    (dt : ℚ) : PageState × CamState :=
  let r := frameStep tl s.1 s.2 dt
  match r.2 with
  | none => (s.1, r.1)
  | some n =>
    let ps := handleAutoAdvance tl.length s.1 n
    if ps.activeIndex ≠ s.1.activeIndex ∨ ps.isPlaying ≠ s.1.isPlaying then
      (ps, { r.1 with lastIndex := ps.activeIndex, elapsed := 0,
                      animating := if ps.isPlaying = false then true else r.1.animating })
    else (ps, r.1)

/-! ## Spec-side predicates (for refinement claims) -/

/-- Modelled from the spec: the elapsed-time selection rule of the
Checkpoint Snapper.  `r` is a valid index carrying a finite timestamp whose
absolute difference to `target` is minimal, ties resolved to the lowest
index. -/
def specElapsedIdx (times : List (Option ℚ)) (target : ℚ) (r : ℕ) : Prop :=
  ∃ tr, times[r]? = some (some tr) ∧
    ∀ i t2, times[i]? = some (some t2) →
      |tr - target| ≤ |t2 - target| ∧ (|tr - target| = |t2 - target| → r ≤ i)

/-! ## Helper lemmas -/

theorem foldl_min_le_init (l : List ℚ) (a : ℚ) : l.foldl min a ≤ a := by
  induction l generalizing a with
  | nil => exact le_rfl
  | cons b t ih => exact le_trans (ih (min a b)) (min_le_left a b)

theorem foldl_min_le_mem (l : List ℚ) (a x : ℚ) (hx : x ∈ l) : l.foldl min a ≤ x := by
  induction l generalizing a with
  | nil => cases hx
  | cons b t ih =>
    rcases List.mem_cons.mp hx with rfl | hx
    · exact le_trans (foldl_min_le_init t (min a x)) (min_le_right a x)
    · exact ih (min a b) hx

theorem le_foldl_max_init (l : List ℚ) (a : ℚ) : a ≤ l.foldl max a := by
  induction l generalizing a with
  | nil => exact le_rfl
  | cons b t ih => exact le_trans (le_max_left a b) (ih (max a b))

theorem le_foldl_max_mem (l : List ℚ) (a x : ℚ) (hx : x ∈ l) : x ≤ l.foldl max a := by
  induction l generalizing a with
  | nil => cases hx
  | cons b t ih =>
    rcases List.mem_cons.mp hx with rfl | hx
    · exact le_trans (le_max_right a x) (le_foldl_max_init t (max a x))
    · exact ih (max a b) hx

theorem listMin_le_mem {l : List ℚ} {x : ℚ} (hx : x ∈ l) : listMin l ≤ x := by
  cases l with
  | nil => cases hx
  | cons a t =>
    rcases List.mem_cons.mp hx with rfl | hx
    · exact foldl_min_le_init t x
    · exact foldl_min_le_mem t a x hx

theorem le_listMax_mem {l : List ℚ} {x : ℚ} (hx : x ∈ l) : x ≤ listMax l := by
  cases l with
  | nil => cases hx
  | cons a t =>
    rcases List.mem_cons.mp hx with rfl | hx
    · exact le_foldl_max_init t x
    · exact le_foldl_max_mem t a x hx

theorem minLatOf_le {raw : List RawSample} {s : RawSample} (hs : s ∈ raw) :
    minLatOf raw ≤ s.lat :=
  listMin_le_mem (List.mem_map_of_mem RawSample.lat hs)

theorem le_maxLatOf {raw : List RawSample} {s : RawSample} (hs : s ∈ raw) :
    s.lat ≤ maxLatOf raw :=
  le_listMax_mem (List.mem_map_of_mem RawSample.lat hs)

theorem minLonOf_le {raw : List RawSample} {s : RawSample} (hs : s ∈ raw) :
    minLonOf raw ≤ s.lon :=
  listMin_le_mem (List.mem_map_of_mem RawSample.lon hs)

theorem le_maxLonOf {raw : List RawSample} {s : RawSample} (hs : s ∈ raw) :
    s.lon ≤ maxLonOf raw :=
  le_listMax_mem (List.mem_map_of_mem RawSample.lon hs)

theorem minEleOf_le {raw : List RawSample} {s : RawSample} (hs : s ∈ raw) :
    minEleOf raw ≤ s.ele :=
  listMin_le_mem (List.mem_map_of_mem RawSample.ele hs)

theorem le_maxEleOf {raw : List RawSample} {s : RawSample} (hs : s ∈ raw) :
    s.ele ≤ maxEleOf raw :=
  le_listMax_mem (List.mem_map_of_mem RawSample.ele hs)

theorem spanLat_nonneg {raw : List RawSample} (h : raw ≠ []) :
    0 ≤ maxLatOf raw - minLatOf raw := by
  obtain ⟨s, hs⟩ := List.exists_mem_of_ne_nil raw h
  have h1 := minLatOf_le hs
  have h2 := le_maxLatOf hs
  linarith

theorem spanLon_nonneg {raw : List RawSample} (h : raw ≠ []) :
    0 ≤ maxLonOf raw - minLonOf raw := by
  obtain ⟨s, hs⟩ := List.exists_mem_of_ne_nil raw h
  have h1 := minLonOf_le hs
  have h2 := le_maxLonOf hs
  linarith

theorem spanEle_nonneg {raw : List RawSample} (h : raw ≠ []) :
    0 ≤ maxEleOf raw - minEleOf raw := by
  obtain ⟨s, hs⟩ := List.exists_mem_of_ne_nil raw h
  have h1 := minEleOf_le hs
  have h2 := le_maxEleOf hs
  linarith

theorem effSpan_pos {s : ℚ} (h : 0 ≤ s) : 0 < effSpan s := by
  unfold effSpan
  split
  · norm_num
  · rename_i hne
    exact lt_of_le_of_ne h (Ne.symm hne)

theorem le_effSpan {s : ℚ} (h : 0 ≤ s) : s ≤ effSpan s := by
  unfold effSpan
  split
  · rename_i h0; rw [h0]; norm_num
  · exact le_rfl

theorem maxSpanOf_pos {raw : List RawSample} (h : raw ≠ []) : 0 < maxSpanOf raw :=
  lt_of_lt_of_le (effSpan_pos (spanLat_nonneg h)) (le_max_left _ _)

theorem eleSpanEffOf_pos {raw : List RawSample} (h : raw ≠ []) : 0 < eleSpanEffOf raw :=
  effSpan_pos (spanEle_nonneg h)

/-! ## C8: degenerate span safety -/

/-- Claim C8: for every non-empty sample sequence, normalization never
divides by zero: both scale divisors (`maxSpan` and the effective elevation
span) are strictly positive, and a zero span on any axis is substituted
with `1`. -/
theorem degenerate_span_safety (raw : List RawSample) (h : raw ≠ []) :
    0 < maxSpanOf raw ∧ 0 < eleSpanEffOf raw ∧
    (maxLatOf raw - minLatOf raw = 0 → effSpan (maxLatOf raw - minLatOf raw) = 1) ∧
    (maxLonOf raw - minLonOf raw = 0 → effSpan (maxLonOf raw - minLonOf raw) = 1) ∧
    (maxEleOf raw - minEleOf raw = 0 → eleSpanEffOf raw = 1) := by
  refine ⟨maxSpanOf_pos h, eleSpanEffOf_pos h, ?_, ?_, ?_⟩ <;>
    · intro h0
      simp [eleSpanEffOf, effSpan, h0]

/-- Witness for C8 at a single-sample track (all three spans degenerate). -/
theorem degenerate_span_safety_witness :
    ([(⟨14, 1209/10, 0, some 0⟩ : RawSample)] ≠ []) ∧
    (0 < maxSpanOf [⟨14, 1209/10, 0, some 0⟩] ∧
     0 < eleSpanEffOf [⟨14, 1209/10, 0, some 0⟩] ∧
     (maxLatOf [⟨14, 1209/10, 0, some 0⟩] - minLatOf [⟨14, 1209/10, 0, some 0⟩] = 0 →
       effSpan (maxLatOf [⟨14, 1209/10, 0, some 0⟩] - minLatOf [⟨14, 1209/10, 0, some 0⟩]) = 1) ∧
     (maxLonOf [⟨14, 1209/10, 0, some 0⟩] - minLonOf [⟨14, 1209/10, 0, some 0⟩] = 0 →
       effSpan (maxLonOf [⟨14, 1209/10, 0, some 0⟩] - minLonOf [⟨14, 1209/10, 0, some 0⟩]) = 1) ∧
     (maxEleOf [⟨14, 1209/10, 0, some 0⟩] - minEleOf [⟨14, 1209/10, 0, some 0⟩] = 0 →
       eleSpanEffOf [⟨14, 1209/10, 0, some 0⟩] = 1)) :=
  ⟨by simp, degenerate_span_safety _ (by simp)⟩

/-! ## C5: normalization bounds -/

/-- Claim C5: every normalized point of a non-empty input has `x` and `z`
within `±2` and `y` within `[0, 0.8]` (in exact arithmetic this holds even
for degenerate spans). -/
theorem normalize_bounds (raw : List RawSample) (h : raw ≠ []) :
    ∀ p ∈ (normalizePoints raw).points,
      |p.x| ≤ 2 ∧ |p.z| ≤ 2 ∧ 0 ≤ p.y ∧ p.y ≤ 4/5 := by
  intro p hp
  rw [normalizePoints] at hp
  simp only [List.mem_map] at hp
  obtain ⟨s, hs, rfl⟩ := hp
  have hms : 0 < maxSpanOf raw := maxSpanOf_pos h
  have hee : 0 < eleSpanEffOf raw := eleSpanEffOf_pos h
  have hlat1 := minLatOf_le hs
  have hlat2 := le_maxLatOf hs
  have hlon1 := minLonOf_le hs
  have hlon2 := le_maxLonOf hs
  have hele1 := minEleOf_le hs
  have hele2 := le_maxEleOf hs
  have hlon_span : maxLonOf raw - minLonOf raw ≤ maxSpanOf raw :=
    le_trans (le_effSpan (spanLon_nonneg h)) (le_max_right _ _)
  have hlat_span : maxLatOf raw - minLatOf raw ≤ maxSpanOf raw :=
    le_trans (le_effSpan (spanLat_nonneg h)) (le_max_left _ _)
  have hele_span : maxEleOf raw - minEleOf raw ≤ eleSpanEffOf raw :=
    le_effSpan (spanEle_nonneg h)
  refine ⟨?_, ?_, ?_, ?_⟩
  · -- |x| ≤ 2
    show |(- (s.lon - centerLonOf raw)) * horizontalScaleOf raw| ≤ 2
    rw [abs_mul, abs_neg, horizontalScaleOf,
      abs_of_pos (by positivity : (0:ℚ) < 4 / maxSpanOf raw)]
    have habs : |s.lon - centerLonOf raw| ≤ (maxLonOf raw - minLonOf raw) / 2 := by
      rw [abs_le, centerLonOf]
      constructor <;> linarith
    have h1 : |s.lon - centerLonOf raw| * (4 / maxSpanOf raw) ≤
        ((maxLonOf raw - minLonOf raw) / 2) * (4 / maxSpanOf raw) :=
      mul_le_mul_of_nonneg_right habs (by positivity)
    refine le_trans h1 ?_
    rw [div_mul_div_comm, div_le_iff (by positivity)]
    linarith
  · -- |z| ≤ 2
    show |(s.lat - centerLatOf raw) * horizontalScaleOf raw| ≤ 2
    rw [abs_mul, horizontalScaleOf,
      abs_of_pos (by positivity : (0:ℚ) < 4 / maxSpanOf raw)]
    have habs : |s.lat - centerLatOf raw| ≤ (maxLatOf raw - minLatOf raw) / 2 := by
      rw [abs_le, centerLatOf]
      constructor <;> linarith
    have h1 : |s.lat - centerLatOf raw| * (4 / maxSpanOf raw) ≤
        ((maxLatOf raw - minLatOf raw) / 2) * (4 / maxSpanOf raw) :=
      mul_le_mul_of_nonneg_right habs (by positivity)
    refine le_trans h1 ?_
    rw [div_mul_div_comm, div_le_iff (by positivity)]
    linarith
  · -- 0 ≤ y
    refine mul_nonneg (by linarith) (le_of_lt ?_)
    rw [elevationScaleOf]
    positivity
  · -- y ≤ 4/5
    show (s.ele - minEleOf raw) * elevationScaleOf raw ≤ 4/5
    rw [elevationScaleOf]
    have h1 : (s.ele - minEleOf raw) * (4/5 / eleSpanEffOf raw) ≤
        eleSpanEffOf raw * (4/5 / eleSpanEffOf raw) :=
      mul_le_mul_of_nonneg_right (by linarith) (by positivity)
    refine le_trans h1 ?_
    rw [mul_comm, div_mul_cancel₀ _ (ne_of_gt hee)]

/-- Witness for C5: the three-sample scenario track; its first normalized
point is `(2, 0, -2)`, which meets all four bounds. -/
theorem normalize_bounds_witness :
    (([(⟨14, 1209/10, 0, some 0⟩ : RawSample),
       ⟨1401/100, 12091/100, 400, some 600000⟩,
       ⟨1402/100, 12092/100, 800, some 1200000⟩] : List RawSample) ≠ []) ∧
    ((⟨2, 0, -2⟩ : P3) ∈ (normalizePoints
      [⟨14, 1209/10, 0, some 0⟩, ⟨1401/100, 12091/100, 400, some 600000⟩,
       ⟨1402/100, 12092/100, 800, some 1200000⟩]).points) ∧
    (|(⟨2, 0, -2⟩ : P3).x| ≤ 2 ∧ |(⟨2, 0, -2⟩ : P3).z| ≤ 2 ∧
      0 ≤ (⟨2, 0, -2⟩ : P3).y ∧ (⟨2, 0, -2⟩ : P3).y ≤ 4/5) := by
  have hmem : (⟨2, 0, -2⟩ : P3) ∈ (normalizePoints
      [⟨14, 1209/10, 0, some 0⟩, ⟨1401/100, 12091/100, 400, some 600000⟩,
       ⟨1402/100, 12092/100, 800, some 1200000⟩]).points := by
    simp only [normalizePoints, normalizePoint, centerLatOf, centerLonOf,
      horizontalScaleOf, elevationScaleOf, maxSpanOf, eleSpanEffOf, minLatOf,
      maxLatOf, minLonOf, maxLonOf, minEleOf, maxEleOf, effSpan, listMin,
      listMax, List.map, List.foldl]
    norm_num
  exact ⟨by simp, hmem, normalize_bounds _ (by simp) _ hmem⟩

/-! ## C2: downsampler bounds -/

theorem enumFrom_filter_len {α : Type} (f : ℕ → Bool) :
    ∀ (l : List α) (n : ℕ),
      ((List.enumFrom n l).filter (fun p => f p.1)).length =
        ((List.range' n l.length).filter f).length := by
  intro l
  induction l with
  | nil => intro n; rfl
  | cons a t ih =>
    intro n
    show ((( n, a) :: List.enumFrom (n+1) t).filter (fun p => f p.1)).length =
      ((n :: List.range' (n+1) t.length).filter f).length
    rw [List.filter_cons, List.filter_cons]
    by_cases hf : f n
    · simp [hf, ih]
    · simp [hf, ih]

theorem enumFrom_map_snd {α : Type} :
    ∀ (l : List α) (n : ℕ), (List.enumFrom n l).map Prod.snd = l := by
  intro l
  induction l with
  | nil => intro n; rfl
  | cons a t ih =>
    intro n
    show (( n, a) :: List.enumFrom (n+1) t).map Prod.snd = a :: t
    rw [List.map_cons, ih]

theorem range_filter_mod_len {s : ℕ} (hs : 0 < s) :
    ∀ m : ℕ, ((List.range m).filter (fun i => i % s == 0)).length = (m + s - 1) / s := by
  intro m
  induction m with
  | zero =>
    simp only [List.range_zero, List.filter_nil, List.length_nil]
    rw [Nat.div_eq_of_lt (by omega)]
  | succ m ih =>
    rw [List.range_succ, List.filter_append, List.length_append, ih]
    have hsucc : m + 1 + s - 1 = (m + s - 1) + 1 := by omega
    rw [hsucc, Nat.succ_div]
    have hdvd : s ∣ m + s - 1 + 1 ↔ s ∣ m := by
      have : m + s - 1 + 1 = m + s := by omega
      rw [this]
      exact Nat.dvd_add_self_right
    by_cases hm : m % s = 0
    · have h1 : (m % s == 0) = true := by simp [hm]
      have h2 : s ∣ m := Nat.dvd_of_mod_eq_zero hm
      simp [h1, hdvd.mpr h2]
    · have h1 : (m % s == 0) = false := by simp [hm]
      have h2 : ¬ s ∣ m := fun hc => hm (Nat.eq_zero_of_dvd_of_lt hc (by omega) ▸ (Nat.mod_eq_zero_of_dvd hc))
      simp [h1, hdvd, h2]

theorem downsample_length {α : Type} (xs : List α) :
    (downsample xs).length =
      (xs.length + max 1 (xs.length / 500) - 1) / max 1 (xs.length / 500) := by
  rw [downsample]
  rw [List.length_map]
  show ((List.enumFrom 0 xs).filter (fun p => p.1 % max 1 (xs.length / 500) == 0)).length = _
  rw [enumFrom_filter_len (fun i => i % max 1 (xs.length / 500) == 0) xs 0]
  rw [← List.range_eq_range']
  exact range_filter_mod_len (by omega) xs.length

theorem downsample_sublist {α : Type} (xs : List α) : (downsample xs).Sublist xs := by
  rw [downsample]
  have h1 : (xs.enum.filter
      (fun p => p.1 % max 1 (xs.length / 500) == 0)).Sublist xs.enum :=
    List.filter_sublist _
  have h2 := h1.map Prod.snd
  rwa [show xs.enum.map Prod.snd = xs from enumFrom_map_snd xs 0] at h2

theorem downsample_head {α : Type} (x : α) (t : List α) :
    ∃ r, downsample (x :: t) = x :: r := by
  rw [downsample]
  refine ⟨((List.enumFrom 1 t).filter
    (fun p => p.1 % max 1 ((x :: t).length / 500) == 0)).map Prod.snd, ?_⟩
  show (((0, x) :: List.enumFrom 1 t).filter _).map Prod.snd = _
  rw [List.filter_cons]
  simp only [Nat.zero_mod, beq_self_eq_true, if_true, List.map_cons]

/-- Counterexample for C2: an input of 999 samples has `step = 1`, so all
999 samples are retained — the claimed bound `≤ 501` fails. -/
theorem downsample_bound_cex :
    (downsample (List.range 999)).length = 999 ∧
    ¬ (downsample (List.range 999)).length ≤ 501 := by
  have h : (downsample (List.range 999)).length = 999 := by
    rw [downsample_length, List.length_range]
    decide
  exact ⟨h, by rw [h]; norm_num⟩

/-- Claim C2 (amended): for non-empty input the downsampler's output has
length at least 1 and at most 999 (the spec's `≤ 501` fails between 502 and
999 raw samples), is an order-preserving subsequence of the input, and its
first element is the input's element at index 0. -/
theorem downsample_bounds {α : Type} (xs : List α) (h : xs ≠ []) :
    1 ≤ (downsample xs).length ∧ (downsample xs).length ≤ 999 ∧
    (downsample xs).Sublist xs ∧ (downsample xs).head? = xs.head? := by
  obtain ⟨x, t, rfl⟩ := List.exists_cons_of_ne_nil h
  obtain ⟨r, hr⟩ := downsample_head x t
  refine ⟨by rw [hr]; simp, ?_, downsample_sublist _, by rw [hr]; rfl⟩
  rw [downsample_length]
  set N := (x :: t).length with hN
  set q := N / 500 with hq
  have hmod : N % 500 < 500 := Nat.mod_lt _ (by norm_num)
  have hdiv : 500 * q + N % 500 = N := Nat.div_add_mod N 500
  by_cases h1 : q = 0
  · have hmax : max 1 q = 1 := by rw [h1]; rfl
    rw [hmax]
    omega
  · have hq1 : 1 ≤ q := Nat.one_le_iff_ne_zero.mpr h1
    have hmax : max 1 q = q := Nat.max_eq_right hq1
    rw [hmax]
    have hlt : (N + q - 1) / q < 1000 := by
      rw [Nat.div_lt_iff_lt_mul (by omega)]
      omega
    omega

/-- Witness for C2 at the concrete input `[0, 1, 2]`. -/
theorem downsample_bounds_witness :
    (([0, 1, 2] : List ℕ) ≠ []) ∧
    (1 ≤ (downsample ([0, 1, 2] : List ℕ)).length ∧
     (downsample ([0, 1, 2] : List ℕ)).length ≤ 999 ∧
     (downsample ([0, 1, 2] : List ℕ)).Sublist [0, 1, 2] ∧
     (downsample ([0, 1, 2] : List ℕ)).head? = ([0, 1, 2] : List ℕ).head?) :=
  ⟨by simp, downsample_bounds _ (by simp)⟩

/-! ## C7: fractional fallback and clamping -/

theorem clampFloor_comm (n : ℕ) (hn : 1 ≤ n) (f : ℚ) :
    max 0 (min ((n:ℤ) - 1) ⌊(min 1 (max 0 f)) * ((n:ℚ) - 1)⌋) =
    max 0 (min ((n:ℤ) - 1) ⌊f * ((n:ℚ) - 1)⌋) := by
  have hm : (0:ℚ) ≤ (n:ℚ) - 1 := by
    have : (1:ℚ) ≤ (n:ℚ) := by exact_mod_cast hn
    linarith
  have hnz : (0:ℤ) ≤ (n:ℤ) - 1 := by
    have : (1:ℤ) ≤ (n:ℤ) := by exact_mod_cast hn
    omega
  rcases le_total f 0 with h0 | h0
  · have hc : min 1 (max 0 f) = 0 := by
      rw [max_eq_left h0]
      norm_num
    rw [hc, zero_mul, Int.floor_zero]
    have h2 : ⌊f * ((n:ℚ) - 1)⌋ ≤ 0 := by
      rw [show (0:ℤ) = ⌊(0:ℚ)⌋ from Int.floor_zero.symm]
      exact Int.floor_le_floor (mul_nonpos_iff.mpr (Or.inr ⟨h0, hm⟩))
    omega
  · rcases le_total 1 f with h1 | h1
    · have hc : min 1 (max 0 f) = 1 := min_eq_left (le_trans h1 (le_max_right 0 f))
      rw [hc, one_mul]
      have hfl : ⌊((n:ℚ) - 1)⌋ = (n:ℤ) - 1 := by
        rw [show ((n:ℚ) - 1) = (((n:ℤ) - 1 : ℤ) : ℚ) by push_cast; ring]
        exact Int.floor_intCast _
      have h2 : (n:ℤ) - 1 ≤ ⌊f * ((n:ℚ) - 1)⌋ := by
        rw [← hfl]
        exact Int.floor_le_floor (by nlinarith)
      omega
    · have hc : min 1 (max 0 f) = f := by rw [max_eq_right h0, min_eq_right h1]
      rw [hc]

/-- Claim C7: with no elapsed-time field (or no finite timestamps), the
selected index is `floor(fraction * (pointCount - 1))` — `fraction` being
the explicit one when given, else `index / max(1, defsLen - 1)` — clamped
into `[0, pointCount - 1]`, never an error. -/
theorem fraction_fallback (ptsLen : ℕ) (times : List (Option ℚ))
    (defsLen index : ℕ) (poi : PoiDef) (hn : 1 ≤ ptsLen)
    (hcond : (poi.elapsedSeconds = none ∧ poi.elapsedMinutes = none) ∨
      times.filterMap id = []) :
    chooseIdx ptsLen times defsLen index poi =
      (max 0 (min ((ptsLen:ℤ) - 1)
        ⌊(poi.fraction.getD ((index:ℚ) / (max 1 (defsLen - 1) : ℕ))) *
          ((ptsLen:ℚ) - 1)⌋)).toNat := by
  rw [chooseIdx]
  have hcond2 : ¬ ((poi.elapsedSeconds.isSome || poi.elapsedMinutes.isSome) = true ∧
      (startTimeOf times).isSome = true ∧ 0 < durationOf times) := by
    rcases hcond with ⟨hs, hm⟩ | hft
    · intro hc
      rw [hs, hm] at hc
      simp at hc
    · intro hc
      rw [startTimeOf, hft] at hc
      simp at hc
  rw [if_neg hcond2]
  cases hf : poi.fraction with
  | none => rfl
  | some f =>
    simp only [Option.getD_some]
    rw [clampFloor_comm ptsLen hn f]

/-- Witness for C7: two trail points, one definition with explicit
`fraction = 3/2` and no timestamps. -/
theorem fraction_fallback_witness :
    1 ≤ 2 ∧
    chooseIdx 2 [none] 1 0 ⟨"W", none, none, none, some (3/2)⟩ =
      (max 0 (min ((2:ℤ) - 1)
        ⌊((PoiDef.mk "W" none none none (some (3/2))).fraction.getD
            ((0:ℚ) / (max 1 (1 - 1) : ℕ))) * ((2:ℚ) - 1)⌋)).toNat :=
  ⟨by norm_num,
    fraction_fallback 2 [none] 1 0 ⟨"W", none, none, none, some (3/2)⟩
      (by norm_num) (Or.inl ⟨rfl, rfl⟩)⟩

/-! ## C3: elapsed-time selection -/

theorem bestScan_cons_none (target : ℚ) (rest : List (Option ℚ)) (n : ℕ)
    (acc : ℕ × Option ℚ) :
    bestScan target (none :: rest) n acc = bestScan target rest (n + 1) acc := by
  cases acc with
  | mk bi bd => cases bd <;> rfl

theorem bestScan_cons_some_none (target t : ℚ) (rest : List (Option ℚ)) (n bi : ℕ) :
    bestScan target (some t :: rest) n (bi, none) =
      bestScan target rest (n + 1) (n, some |t - target|) := rfl

theorem bestScan_cons_some_some (target t : ℚ) (rest : List (Option ℚ)) (n bi : ℕ)
    (bd : ℚ) :
    bestScan target (some t :: rest) n (bi, some bd) =
      bestScan target rest (n + 1)
        (if |t - target| < bd then (n, some |t - target|) else (bi, some bd)) := rfl

theorem bestScan_go_some (target : ℚ) (l : List (Option ℚ)) :
    ∀ (n bi : ℕ) (bd : ℚ), bi < n →
    ∃ ri rd, bestScan target l n (bi, some bd) = (ri, some rd) ∧
      rd ≤ bd ∧
      ((ri = bi ∧ rd = bd) ∨
        (∃ k t, l[k]? = some (some t) ∧ ri = n + k ∧ rd = |t - target| ∧ rd < bd)) ∧
      (∀ k t, l[k]? = some (some t) →
        rd ≤ |t - target| ∧ (rd = |t - target| → ri ≤ n + k)) := by
  induction l with
  | nil =>
    intro n bi bd hbi
    exact ⟨bi, bd, rfl, le_rfl, Or.inl ⟨rfl, rfl⟩, by intro k t hk; simp at hk⟩
  | cons t? rest ih =>
    intro n bi bd hbi
    cases t? with
    | none =>
      rw [bestScan_cons_none]
      obtain ⟨ri, rd, heq, hle, hsrc, hall⟩ := ih (n + 1) bi bd (by omega)
      refine ⟨ri, rd, heq, hle, ?_, ?_⟩
      · rcases hsrc with h | ⟨k, t, hk, hri, hrd, hlt⟩
        · exact Or.inl h
        · exact Or.inr ⟨k + 1, t, by simpa using hk, by omega, hrd, hlt⟩
      · intro k t hk
        cases k with
        | zero => simp at hk
        | succ k =>
          obtain ⟨h1, h2⟩ := hall k t (by simpa using hk)
          exact ⟨h1, fun he => by have := h2 he; omega⟩
    | some t =>
      by_cases hd : |t - target| < bd
      · have hstep : bestScan target (some t :: rest) n (bi, some bd) =
            bestScan target rest (n + 1) (n, some |t - target|) := by
          rw [bestScan_cons_some_some, if_pos hd]
        obtain ⟨ri, rd, heq, hle, hsrc, hall⟩ := ih (n + 1) n |t - target| (by omega)
        rw [hstep]
        refine ⟨ri, rd, heq, le_trans hle hd.le, ?_, ?_⟩
        · rcases hsrc with ⟨hri, hrd⟩ | ⟨k, t2, hk, hri, hrd, hlt⟩
          · exact Or.inr ⟨0, t, by simp, by omega, hrd, hrd ▸ hd⟩
          · exact Or.inr ⟨k + 1, t2, by simpa using hk, by omega, hrd,
              lt_trans hlt hd⟩
        · intro k t2 hk
          cases k with
          | zero =>
            have ht2 : t2 = t := by simpa using hk.symm
            subst ht2
            refine ⟨hle, fun he => ?_⟩
            rcases hsrc with ⟨hri, _⟩ | ⟨k2, t3, _, _, hrd, hlt⟩
            · omega
            · rw [he] at hlt
              exact absurd hlt (lt_irrefl _)
          | succ k =>
            obtain ⟨h1, h2⟩ := hall k t2 (by simpa using hk)
            exact ⟨h1, fun he => by have := h2 he; omega⟩
      · have hstep : bestScan target (some t :: rest) n (bi, some bd) =
            bestScan target rest (n + 1) (bi, some bd) := by
          rw [bestScan_cons_some_some, if_neg hd]
        obtain ⟨ri, rd, heq, hle, hsrc, hall⟩ := ih (n + 1) bi bd (by omega)
        rw [hstep]
        refine ⟨ri, rd, heq, hle, ?_, ?_⟩
        · rcases hsrc with h | ⟨k, t2, hk, hri, hrd, hlt⟩
          · exact Or.inl h
          · exact Or.inr ⟨k + 1, t2, by simpa using hk, by omega, hrd, hlt⟩
        · intro k t2 hk
          cases k with
          | zero =>
            have ht2 : t2 = t := by simpa using hk.symm
            subst ht2
            push_neg at hd
            refine ⟨le_trans hle hd, fun he => ?_⟩
            have hrdbd : rd = bd := le_antisymm hle (he ▸ hd)
            rcases hsrc with ⟨hri, _⟩ | ⟨k2, t3, _, _, _, hlt⟩
            · omega
            · rw [hrdbd] at hlt
              exact absurd hlt (lt_irrefl _)
          | succ k =>
            obtain ⟨h1, h2⟩ := hall k t2 (by simpa using hk)
            exact ⟨h1, fun he => by have := h2 he; omega⟩

theorem bestScan_go_none (target : ℚ) (l : List (Option ℚ)) :
    ∀ n bi : ℕ,
    (bestScan target l n (bi, none) = (bi, none) ∧
      ∀ (k : ℕ) (t : ℚ), l[k]? = some (some t) → False) ∨
    (∃ (ri : ℕ) (rd : ℚ), bestScan target l n (bi, none) = (ri, some rd) ∧
      (∃ (k : ℕ) (t : ℚ), l[k]? = some (some t) ∧ ri = n + k ∧ rd = |t - target|) ∧
      (∀ (k : ℕ) (t : ℚ), l[k]? = some (some t) →
        rd ≤ |t - target| ∧ (rd = |t - target| → ri ≤ n + k))) := by
  induction l with
  | nil =>
    intro n bi
    exact Or.inl ⟨rfl, by intro k t hk; simp at hk⟩
  | cons t? rest ih =>
    intro n bi
    cases t? with
    | none =>
      rw [bestScan_cons_none]
      rcases ih (n + 1) bi with ⟨heq, hnone⟩ | ⟨ri, rd, heq, ⟨k, t, hk, hri, hrd⟩, hall⟩
      · refine Or.inl ⟨heq, ?_⟩
        intro k t hk
        cases k with
        | zero => simp at hk
        | succ k => exact hnone k t (by simpa using hk)
      · refine Or.inr ⟨ri, rd, heq, ⟨k + 1, t, by simpa using hk, by omega, hrd⟩, ?_⟩
        intro k2 t2 hk2
        cases k2 with
        | zero => simp at hk2
        | succ k2 =>
          obtain ⟨h1, h2⟩ := hall k2 t2 (by simpa using hk2)
          exact ⟨h1, fun he => by have := h2 he; omega⟩
    | some t =>
      have hstep : bestScan target (some t :: rest) n (bi, none) =
          bestScan target rest (n + 1) (n, some |t - target|) :=
        bestScan_cons_some_none target t rest n bi
      obtain ⟨ri, rd, heq, hle, hsrc, hall⟩ :=
        bestScan_go_some target rest (n + 1) n |t - target| (by omega)
      rw [hstep]
      refine Or.inr ⟨ri, rd, heq, ?_, ?_⟩
      · rcases hsrc with ⟨hri, hrd⟩ | ⟨k, t2, hk, hri, hrd, _⟩
        · exact ⟨0, t, by simp, by omega, hrd⟩
        · exact ⟨k + 1, t2, by simpa using hk, by omega, hrd⟩
      · intro k t2 hk
        cases k with
        | zero =>
          have ht2 : t2 = t := by simpa using hk.symm
          subst ht2
          refine ⟨hle, fun he => ?_⟩
          rcases hsrc with ⟨hri, _⟩ | ⟨k2, t3, _, _, hrd, hlt⟩
          · omega
          · rw [he] at hlt
            exact absurd hlt (lt_irrefl _)
        | succ k =>
          obtain ⟨h1, h2⟩ := hall k t2 (by simpa using hk)
          exact ⟨h1, fun he => by have := h2 he; omega⟩

theorem exists_finite_of_startTime {times : List (Option ℚ)} {st : ℚ}
    (h : startTimeOf times = some st) :
    ∃ (k : ℕ) (t : ℚ), times[k]? = some (some t) := by
  rw [startTimeOf] at h
  cases hft : times.filterMap id with
  | nil => rw [hft] at h; cases h
  | cons a l =>
    have hmem : a ∈ times.filterMap id := by rw [hft]; exact List.mem_cons_self a l
    rw [List.mem_filterMap] at hmem
    obtain ⟨o, ho, hoa⟩ := hmem
    obtain ⟨k, hk⟩ := List.mem_iff_getElem?.mp ho
    exact ⟨k, a, by rw [hk]; exact congrArg some hoa⟩

/-- Counterexample for C3: two points whose timestamps are both finite and
equal (`totalDurationMs = 0`).  The code takes the fractional fallback
(selecting index 1 from `fraction = 1`), while the claimed elapsed-time
rule would select index 0 (tie on equal differences resolved to the lowest
index). -/
theorem elapsed_selection_cex :
    chooseIdx 2 [some 1000, some 1000] 1 0 ⟨"A", none, some 0, none, some 1⟩ = 1 ∧
    ¬ specElapsedIdx [some 1000, some 1000] (1000 + 0 * 1000) 1 := by
  constructor
  · have hdur : durationOf [some 1000, some 1000] = 0 := by
      norm_num [durationOf, startTimeOf, endTimeOf, List.filterMap]
    rw [chooseIdx, if_neg (fun hc => by rw [hdur] at hc; exact lt_irrefl 0 hc.2.2)]
    norm_num
  · rintro ⟨tr, htr, hall⟩
    have htr2 : tr = 1000 := by simpa using htr.symm
    subst htr2
    obtain ⟨_, htie⟩ := hall 0 1000 (by simp)
    exact absurd (htie rfl) (by omega)

/-- Claim C3 (amended): when a definition carries an elapsed-time field,
the start time is finite AND the finite timestamps span a strictly positive
duration (the code requires `totalDurationMs > 0`, not merely one finite
timestamp), the selected index carries a finite timestamp with minimal
absolute difference to `targetTime = startTime + elapsedSeconds * 1000`,
ties resolved to the lowest index. -/
theorem elapsed_selection (ptsLen : ℕ) (times : List (Option ℚ))
    (defsLen index : ℕ) (poi : PoiDef) (st : ℚ)
    (he : (poi.elapsedSeconds.isSome || poi.elapsedMinutes.isSome) = true)
    (hst : startTimeOf times = some st)
    (hdur : 0 < durationOf times)
    (hlen : times.length = ptsLen) :
    specElapsedIdx times (st + elapsedOf poi * 1000)
      (chooseIdx ptsLen times defsLen index poi) := by
  rw [chooseIdx, if_pos ⟨he, by rw [hst]; rfl, hdur⟩, hst]
  simp only [Option.getD_some]
  rcases bestScan_go_none (st + elapsedOf poi * 1000) times 0 0 with
    ⟨_, hnone⟩ | ⟨ri, rd, heq, ⟨k, t, hk, hri, hrd⟩, hall⟩
  · obtain ⟨k, t, hk⟩ := exists_finite_of_startTime hst
    exact absurd hk (by intro h; exact hnone k t h)
  · have hbest : bestTimeIdx times (st + elapsedOf poi * 1000) = ri := by
      rw [bestTimeIdx, heq]
    rw [hbest]
    have hklt : k < times.length := by
      by_contra hge
      rw [List.getElem?_eq_none (by omega)] at hk
      cases hk
    have hrlt : ri < ptsLen := by omega
    have hclamp : (max 0 (min ((ptsLen:ℤ) - 1) (ri:ℤ))).toNat = ri := by omega
    rw [hclamp]
    refine ⟨t, by rw [show ri = k by omega]; exact hk, ?_⟩
    intro i t2 hi
    obtain ⟨h1, h2⟩ := hall i t2 hi
    rw [← hrd]
    exact ⟨h1, fun he2 => by have := h2 he2; omega⟩

/-- Witness for C3: timestamps `[0ms, 1000ms]`, definition with
`elapsedSeconds = 1` — the selection obeys the amended elapsed-time rule. -/
theorem elapsed_selection_witness :
    ((PoiDef.mk "W2" none (some 1) none none).elapsedSeconds.isSome ||
      (PoiDef.mk "W2" none (some 1) none none).elapsedMinutes.isSome) = true ∧
    startTimeOf [some 0, some 1000] = some 0 ∧
    0 < durationOf [some 0, some 1000] ∧
    ([some 0, some 1000] : List (Option ℚ)).length = 2 ∧
    specElapsedIdx [some 0, some 1000]
      (0 + elapsedOf ⟨"W2", none, some 1, none, none⟩ * 1000)
      (chooseIdx 2 [some 0, some 1000] 1 0 ⟨"W2", none, some 1, none, none⟩) := by
  have h1 : startTimeOf [some 0, some 1000] = some 0 := by
    norm_num [startTimeOf, List.filterMap]
  have h2 : (0:ℚ) < durationOf [some 0, some 1000] := by
    norm_num [durationOf, startTimeOf, endTimeOf, List.filterMap]
  exact ⟨rfl, h1, h2, rfl,
    elapsed_selection 2 [some 0, some 1000] 1 0 ⟨"W2", none, some 1, none, none⟩ 0
      rfl h1 h2 rfl⟩

/-! ## C4 and C10: heightfield synthesizer -/

theorem nearestScan_go (u v : ℚ) :
    ∀ (l : List P3) (b y0 : ℚ), 0 ≤ b →
    ∃ d y, l.foldl (nearestStep u v) (some b, y0) = (some d, y) ∧ 0 ≤ d ∧
      (y = y0 ∨ ∃ p ∈ l, p.y = y) := by
  intro l
  induction l with
  | nil => intro b y0 hb; exact ⟨b, y0, rfl, hb, Or.inl rfl⟩
  | cons p t ih =>
    intro b y0 hb
    rw [List.foldl_cons]
    have hsq : 0 ≤ (u - p.x) * (u - p.x) + (v - p.z) * (v - p.z) :=
      add_nonneg (mul_self_nonneg _) (mul_self_nonneg _)
    by_cases hlt : (u - p.x) * (u - p.x) + (v - p.z) * (v - p.z) < b
    · have hstep : nearestStep u v (some b, y0) p =
          (some ((u - p.x) * (u - p.x) + (v - p.z) * (v - p.z)), p.y) := by
        rw [nearestStep]
        simp [hlt]
      rw [hstep]
      obtain ⟨d, y, heq, hd, hy⟩ := ih _ p.y hsq
      refine ⟨d, y, heq, hd, ?_⟩
      rcases hy with rfl | ⟨q, hq, hqy⟩
      · exact Or.inr ⟨p, List.mem_cons_self p t, rfl⟩
      · exact Or.inr ⟨q, List.mem_cons_of_mem p hq, hqy⟩
    · have hstep : nearestStep u v (some b, y0) p = (some b, y0) := by
        rw [nearestStep]
        simp [hlt]
      rw [hstep]
      obtain ⟨d, y, heq, hd, hy⟩ := ih b y0 hb
      refine ⟨d, y, heq, hd, ?_⟩
      rcases hy with rfl | ⟨q, hq, hqy⟩
      · exact Or.inl rfl
      · exact Or.inr ⟨q, List.mem_cons_of_mem p hq, hqy⟩

theorem nearestScan_mem (u v : ℚ) (pts : List P3) (h : pts ≠ []) :
    ∃ d y, nearestScan u v pts = (some d, y) ∧ 0 ≤ d ∧ ∃ p ∈ pts, p.y = y := by
  obtain ⟨p, t, rfl⟩ := List.exists_cons_of_ne_nil h
  rw [nearestScan, List.foldl_cons]
  have hsq : 0 ≤ (u - p.x) * (u - p.x) + (v - p.z) * (v - p.z) :=
    add_nonneg (mul_self_nonneg _) (mul_self_nonneg _)
  have hstep : nearestStep u v (none, 0) p =
      (some ((u - p.x) * (u - p.x) + (v - p.z) * (v - p.z)), p.y) := rfl
  rw [hstep]
  obtain ⟨d, y, heq, hd, hy⟩ := nearestScan_go u v t _ p.y hsq
  refine ⟨d, y, heq, hd, ?_⟩
  rcases hy with rfl | ⟨q, hq, hqy⟩
  · exact ⟨p, List.mem_cons_self p t, rfl⟩
  · exact ⟨q, List.mem_cons_of_mem p hq, hqy⟩

theorem nearestScan_single (u v e : ℚ) :
    nearestScan u v [⟨0, e, 0⟩] = (some (u * u + v * v), e) := by
  show nearestStep u v (none, 0) ⟨0, e, 0⟩ = _
  rw [nearestStep]
  norm_num

theorem heightFun_single (u v e : ℚ) :
    heightFun [⟨0, e, 0⟩] u v =
      (e : ℝ) * Real.exp (-((u * u + v * v : ℚ) : ℝ) / ((twoSigmaSq : ℚ) : ℝ)) := by
  rw [heightFun, nearestScan_single]

/-- Counterexample for C4: the 64×64 grid has no cell at the planar origin
(the even resolution puts the middle cells at `±4/63`), so at the cell
nearest the origin the value is strictly below `elevation * exp(0)`. -/
theorem heightfield_origin_cell_cex :
    noOriginCell ∧ heightAt [⟨0, 1, 0⟩] 31 31 < ((1 : ℚ) : ℝ) * Real.exp 0 := by
  constructor
  · intro i h
    rw [gridCoord] at h
    have h1 : (i.val : ℚ) * 8 = 252 := by
      field_simp at h
      linarith
    have h2 : i.val * 8 = 252 := by exact_mod_cast h1
    omega
  · rw [heightAt, heightFun_single]
    have hd : (0 : ℚ) < gridCoord 31 * gridCoord 31 + gridCoord 31 * gridCoord 31 := by
      norm_num [gridCoord]
    have hexp : -((gridCoord 31 * gridCoord 31 + gridCoord 31 * gridCoord 31 : ℚ) : ℝ) /
        ((twoSigmaSq : ℚ) : ℝ) < 0 := by
      apply div_neg_of_neg_of_pos
      · rw [neg_lt_zero]
        exact_mod_cast hd
      · norm_num [twoSigmaSq]
    exact mul_lt_mul_of_pos_left (Real.exp_lt_exp.mpr hexp) (by norm_num)

/-- Claim C4 (amended): for a single trail point at the planar origin with
positive elevation `e`, the height function at the origin itself equals
`e * exp(0) = e` (no grid cell sits exactly there), and among grid cells the
value strictly decreases as the squared planar distance from the origin
grows. -/
theorem heightfield_single_point (e : ℚ) (he : 0 < e) :
    heightFun [⟨0, e, 0⟩] 0 0 = (e : ℝ) ∧
    ∀ i1 j1 i2 j2 : ℕ, gridDistSq i1 j1 < gridDistSq i2 j2 →
      heightAt [⟨0, e, 0⟩] i2 j2 < heightAt [⟨0, e, 0⟩] i1 j1 := by
  constructor
  · rw [heightFun_single]
    norm_num
  · intro i1 j1 i2 j2 hlt
    rw [heightAt, heightAt, heightFun_single, heightFun_single]
    have hcast : ((gridCoord i2 * gridCoord i2 + gridCoord j2 * gridCoord j2 : ℚ) : ℝ) >
        ((gridCoord i1 * gridCoord i1 + gridCoord j1 * gridCoord j1 : ℚ) : ℝ) := by
      exact_mod_cast hlt
    have hc : (0 : ℝ) < ((twoSigmaSq : ℚ) : ℝ) := by norm_num [twoSigmaSq]
    have hexp : -((gridCoord i2 * gridCoord i2 + gridCoord j2 * gridCoord j2 : ℚ) : ℝ) /
        ((twoSigmaSq : ℚ) : ℝ) <
        -((gridCoord i1 * gridCoord i1 + gridCoord j1 * gridCoord j1 : ℚ) : ℝ) /
        ((twoSigmaSq : ℚ) : ℝ) := by
      apply div_lt_div_of_pos_right ?_ hc
      exact neg_lt_neg hcast
    exact mul_lt_mul_of_pos_left (Real.exp_lt_exp.mpr hexp) (by exact_mod_cast he)

/-- Witness for C4 at `e = 1`, comparing the near-origin cell `(31, 31)`
with the corner cell `(0, 0)`. -/
theorem heightfield_single_point_witness :
    (0 : ℚ) < 1 ∧ heightFun [⟨0, 1, 0⟩] 0 0 = ((1 : ℚ) : ℝ) ∧
    gridDistSq 31 31 < gridDistSq 0 0 ∧
    heightAt [⟨0, 1, 0⟩] 0 0 < heightAt [⟨0, 1, 0⟩] 31 31 :=
  ⟨by norm_num, (heightfield_single_point 1 (by norm_num)).1,
    by norm_num [gridDistSq, gridCoord],
    (heightfield_single_point 1 (by norm_num)).2 31 31 0 0
      (by norm_num [gridDistSq, gridCoord])⟩

/-- Claim C10: for a non-empty trail whose elevations lie in `[0, 0.8]`,
every heightfield cell lies in `[0, 0.8]`; each cell value is some trail
point's elevation times a falloff factor in `(0, 1]`. -/
theorem heightfield_range (pts : List P3) (hne : pts ≠ [])
    (hb : ∀ p ∈ pts, 0 ≤ p.y ∧ p.y ≤ 4/5) (i j : ℕ) :
    0 ≤ heightAt pts i j ∧ heightAt pts i j ≤ 4/5 ∧
    ∃ p ∈ pts, ∃ f : ℝ, 0 < f ∧ f ≤ 1 ∧ heightAt pts i j = (p.y : ℝ) * f := by
  obtain ⟨d, y, heq, hd, p, hp, hpy⟩ := nearestScan_mem (gridCoord i) (gridCoord j) pts hne
  have hH : heightAt pts i j =
      (y : ℝ) * Real.exp (-(d : ℝ) / ((twoSigmaSq : ℚ) : ℝ)) := by
    rw [heightAt, heightFun, heq]
  have hf0 : (0 : ℝ) < Real.exp (-(d : ℝ) / ((twoSigmaSq : ℚ) : ℝ)) := Real.exp_pos _
  have hf1 : Real.exp (-(d : ℝ) / ((twoSigmaSq : ℚ) : ℝ)) ≤ 1 := by
    rw [Real.exp_le_one_iff]
    apply div_nonpos_of_nonpos_of_nonneg
    · rw [neg_nonpos]
      exact_mod_cast hd
    · norm_num [twoSigmaSq]
  obtain ⟨hy0, hy1⟩ := hb p hp
  rw [hpy] at hy0 hy1
  have hy0R : (0 : ℝ) ≤ (y : ℝ) := by exact_mod_cast hy0
  have hy1R : (y : ℝ) ≤ 4/5 := by
    rw [show (4/5 : ℝ) = ((4/5 : ℚ) : ℝ) by norm_num]
    exact_mod_cast hy1
  refine ⟨?_, ?_, p, hp, _, hf0, hf1, by rw [hH, hpy]⟩
  · rw [hH]
    exact mul_nonneg hy0R hf0.le
  · rw [hH]
    exact le_trans (mul_le_of_le_one_right hy0R hf1) hy1R

/-- Witness for C10 at a single point of elevation `1/2` and cell `(0, 0)`. -/
theorem heightfield_range_witness :
    (([(⟨0, 1/2, 0⟩ : P3)] : List P3) ≠ []) ∧
    (∀ p ∈ ([(⟨0, 1/2, 0⟩ : P3)] : List P3), 0 ≤ p.y ∧ p.y ≤ 4/5) ∧
    (0 ≤ heightAt [⟨0, 1/2, 0⟩] 0 0 ∧ heightAt [⟨0, 1/2, 0⟩] 0 0 ≤ 4/5 ∧
      ∃ p ∈ ([(⟨0, 1/2, 0⟩ : P3)] : List P3), ∃ f : ℝ, 0 < f ∧ f ≤ 1 ∧
        heightAt [⟨0, 1/2, 0⟩] 0 0 = (p.y : ℝ) * f) := by
  have hb : ∀ p ∈ ([(⟨0, 1/2, 0⟩ : P3)] : List P3), 0 ≤ p.y ∧ p.y ≤ 4/5 := by
    intro p hp
    rw [List.mem_singleton] at hp
    rw [hp]
    norm_num
  exact ⟨by simp, hb, heightfield_range _ (by simp) hb 0 0⟩

/-! ## C9 and C1: playback controller -/

theorem animStep_lastIndex (cur : TimelineEntry) (cs : CamState) :
    (animStep cur cs).lastIndex = cs.lastIndex := by
  rw [animStep]
  dsimp only
  split_ifs <;> rfl

theorem playStep_some {tlLen : ℕ} {playing : Bool} {cs : CamState} {dt : ℚ} {n : ℕ}
    (h : (playStep tlLen playing cs dt).2 = some n) :
    n = cs.lastIndex + 1 ∧ n < tlLen := by
  rw [playStep] at h
  dsimp only at h
  split_ifs at h with h1 h2 h3
  · simp only [Option.some.injEq] at h
    exact ⟨h.symm, by omega⟩
  all_goals simp at h

/-- Claim C9: whenever the controller invokes the auto-advance callback,
the argument is the tracked `lastIndexRef` plus one and is strictly less
than the timeline length — for every timeline, page state, refs state and
frame delta, hence along every sequence of frames. -/
theorem autoAdvance_valid (tl : List TimelineEntry) (ps : PageState)
    (cs : CamState) (dt : ℚ) (n : ℕ)
    (h : (frameStep tl ps cs dt).2 = some n) :
    n = cs.lastIndex + 1 ∧ n < tl.length := by
  rw [frameStep] at h
  cases htl : tl[ps.activeIndex]? with
  | none =>
    rw [htl] at h
    cases h
  | some cur =>
    rw [htl] at h
    obtain ⟨h1, h2⟩ := playStep_some h
    rw [animStep_lastIndex] at h1
    exact ⟨h1, h2⟩

/-- Witness for C9: a two-entry timeline, playback on at index 0 with a
full step-duration frame emits the callback with argument 1. -/
theorem autoAdvance_valid_witness :
    (frameStep [⟨"a", "b", ⟨0, 0, 0⟩⟩, ⟨"c", "d", ⟨1, 0, 1⟩⟩]
        ⟨0, true⟩ ⟨⟨0, 0, 0⟩, 0, 0, false⟩ 2).2 = some 1 ∧
    (1 = (CamState.mk ⟨0, 0, 0⟩ 0 0 false).lastIndex + 1 ∧
      1 < ([⟨"a", "b", ⟨0, 0, 0⟩⟩, ⟨"c", "d", ⟨1, 0, 1⟩⟩] : List TimelineEntry).length) := by
  have h : (frameStep [⟨"a", "b", ⟨0, 0, 0⟩⟩, ⟨"c", "d", ⟨1, 0, 1⟩⟩]
      ⟨0, true⟩ ⟨⟨0, 0, 0⟩, 0, 0, false⟩ 2).2 = some 1 := by
    norm_num [frameStep, animStep, playStep]
  exact ⟨h, autoAdvance_valid _ _ _ _ _ h⟩

/-- Claim C1 (code behavior at the failing input): with playback on at the
last timeline index, one full step-duration frame leaves `isPlaying = true`
— the controller never calls the page callback with an out-of-range index,
so the page's `setIsPlaying(false)` branch is dead and playback is never
forced off at the terminal, contradicting the spec.  `activeIndex` does
stay at the last valid index. -/
theorem playback_terminal_bug :
    (systemStep [⟨"00:40", "Summit", ⟨0, 0, 0⟩⟩]
        (⟨0, true⟩, ⟨⟨0, 0, 0⟩, 0, 0, false⟩) 2).1.isPlaying = true ∧
    (systemStep [⟨"00:40", "Summit", ⟨0, 0, 0⟩⟩]
        (⟨0, true⟩, ⟨⟨0, 0, 0⟩, 0, 0, false⟩) 2).1.activeIndex = 0 := by
  norm_num [systemStep, frameStep, animStep, playStep]

/-! ## C6: the three-sample scenario -/

set_option maxHeartbeats 1000000 in
/-- Claim C6: on the scenario track (3 samples, timestamps 0 / 600000 /
1200000 ms) with the single definition `{elapsedSeconds: 600}`, the
pipeline selects point index 1 (the exact timestamp match) and labels the
entry `"10:00"`. -/
theorem scenario_timeline :
    mainTimeline
      [⟨14, 1209/10, 0, some 0⟩, ⟨1401/100, 12091/100, 400, some 600000⟩,
       ⟨1402/100, 12092/100, 800, some 1200000⟩]
      [⟨"Checkpoint", none, some 600, none, none⟩] =
      [⟨"10:00", "Checkpoint", ⟨0, 2/5, 0⟩⟩] ∧
    (normalizePoints (downsample
      [⟨14, 1209/10, 0, some 0⟩, ⟨1401/100, 12091/100, 400, some 600000⟩,
       ⟨1402/100, 12092/100, 800, some 1200000⟩])).points[1]? =
      some ⟨0, 2/5, 0⟩ := by
  have hdown :
      MountainNano.downsample
        [(⟨14, 1209/10, 0, some 0⟩ : RawSample), ⟨1401/100, 12091/100, 400, some 600000⟩,
         ⟨1402/100, 12092/100, 800, some 1200000⟩] =
      [⟨14, 1209/10, 0, some 0⟩, ⟨1401/100, 12091/100, 400, some 600000⟩,
       ⟨1402/100, 12092/100, 800, some 1200000⟩] := by
    simp [downsample, List.enum, List.enumFrom, List.filter]
  have hnorm :
      MountainNano.normalizePoints
        [⟨14, 1209/10, 0, some 0⟩, ⟨1401/100, 12091/100, 400, some 600000⟩,
         ⟨1402/100, 12092/100, 800, some 1200000⟩] =
      { points := [⟨2, 0, -2⟩, ⟨0, 2/5, 0⟩, ⟨-2, 4/5, 2⟩]
        times := [some 0, some 600000, some 1200000]
        bbox := ⟨14, 1402/100, 1209/10, 12092/100, 0, 800⟩ } := by
    simp only [normalizePoints, normalizePoint, centerLatOf, centerLonOf,
      horizontalScaleOf, elevationScaleOf, maxSpanOf, eleSpanEffOf, minLatOf,
      maxLatOf, minLonOf, maxLonOf, minEleOf, maxEleOf, effSpan, listMin,
      listMax, List.map, List.foldl]
    norm_num
  constructor
  · rw [MountainNano.mainTimeline, hdown, hnorm]
    have hstart : startTimeOf [some 0, some 600000, some 1200000] = some 0 := by
      norm_num [startTimeOf, List.filterMap]
    have hdur : durationOf [some 0, some 600000, some 1200000] = 1200000 := by
      norm_num [durationOf, startTimeOf, endTimeOf, List.filterMap]
    have hbest :
        bestTimeIdx [some 0, some 600000, some 1200000] 600000 = 1 := by
      norm_num [bestTimeIdx, bestScan]
    have hidx :
        chooseIdx 3 [some 0, some 600000, some 1200000] 1 0
          ⟨"Checkpoint", none, some 600, none, none⟩ = 1 := by
      rw [chooseIdx]
      rw [if_pos ⟨by norm_num, by rw [hstart]; norm_num, by rw [hdur]; norm_num⟩]
      rw [hstart]
      norm_num [elapsedOf, hbest]
    simp only [buildTimeline, List.enum, List.enumFrom, List.map, List.length]
    rw [hidx]
    norm_num [labelTimeOf, formatElapsedLabel, pad2, elapsedOf]
    decide
  · rw [hdown, hnorm]
    rfl

end MountainNano
